import Mathlib

/-!
# Verification of the vovere tag subsystem

Shallow embedding of the tag extraction and tag-index reconciliation
subsystem of the vovere repository
(`internal/app/services/tags.go`, `internal/app/services/repository.go`,
`internal/app/models/item.go`), together with theorems settling the
frozen claims about it.

## Part 1: the tag grammar extractor

`ExtractTags` (tags.go, lines 30–70) matches the Go regular expression

  `(?:^|\s)#([^\s,.;!?]+(?:[.:](?:[^\s,.;!?]+))*)\b`

with `FindAllStringSubmatch`, trims trailing `.`/`:` from each captured
body, drops empty results and deduplicates through a map.

The embedding below implements that exact regular expression as an
explicit leftmost-first backtracking matcher (Go's `regexp` package
documents leftmost-first, Perl-style submatch semantics):

* `\s` in Go regexps is the ASCII class `[\t\n\f\r ]` (`goSpace`);
* `[^\s,.;!?]` is `isTagChar`;
* `\b` is an ASCII word boundary, word characters being `[0-9A-Za-z_]`
  (`isWordChar`);
* greedy `+`/`*` with backtracking is realised by producing the list of
  candidate splits in exactly the engine's depth-first preference order
  (longest first at each choice point) and taking the first candidate
  whose continuation (here: the trailing `\b` test) succeeds;
* `FindAllStringSubmatch` scans positions left to right and resumes
  after the end of each (always non-empty) match.

Go map iteration order is unspecified; the Go function therefore returns
the deduplicated tags in an unspecified order.  The embedding returns
them in first-occurrence order, one of the admissible orders; no claim
below depends on the order.
-/

namespace Vovere

/-- Go regexp `\s`: the ASCII whitespace class `[\t\n\f\r ]`. -/
def goSpace (c : Char) : Bool :=
  c = ' ' || c = '\t' || c = '\n' || c = Char.ofNat 12 || c = '\r'

/-- The character class `[^\s,.;!?]` of the tag regex. -/
def isTagChar (c : Char) : Bool :=
  !(goSpace c || c = ',' || c = '.' || c = ';' || c = '!' || c = '?')

/-- Go regexp `\b` word characters: ASCII `[0-9A-Za-z_]`. -/
def isWordChar (c : Char) : Bool :=
  c.isAlpha || c.isDigit || c = '_'

/-- Maximal prefix of `isTagChar` characters, with the remainder. -/
def takeRun : List Char → List Char × List Char
  | [] => ([], [])
  | c :: rest =>
    if isTagChar c then
      let pr := takeRun rest
      (c :: pr.1, pr.2)
    else
      ([], c :: rest)

/--
All ways for a greedy `+` to split the run `p` (followed by `rest`)
into a non-empty matched prefix and the remainder, in the engine's
backtracking preference order: longest prefix first.
-/
def splitsDesc : List Char → List Char → List (List Char × List Char)
  | [], _ => []
  | [c], rest => [([c], rest)]
  | c :: c' :: p, rest =>
    (splitsDesc (c' :: p) rest).map (fun qr => (c :: qr.1, qr.2)) ++
      [([c], c' :: (p ++ rest))]

/--
Candidate matches of `[^\s,.;!?]+` at the head of `cs`, in greedy
backtracking order (longest first).
-/
def cplusSplits (cs : List Char) : List (List Char × List Char) :=
  let pr := takeRun cs
  splitsDesc pr.1 pr.2

/--
Candidate matches of `(?:[.:][^\s,.;!?]+)*` at the head of `cs`, in
greedy backtracking order: for each possible first iteration (itself in
greedy order) all continuations, and only then the zero-iteration
candidate.  `fuel` bounds the number of star iterations; every
iteration consumes at least two characters, so calling with
`fuel ≥ length cs` never exhausts the fuel before the star is forced to
stop anyway.
-/
def starSplits : Nat → List Char → List (List Char × List Char)
  | 0, cs => [([], cs)]
  | fuel + 1, cs =>
    match cs with
    | [] => [([], [])]
    | c :: rest =>
      if c = '.' || c = ':' then
        ((cplusSplits rest).flatMap (fun pr =>
          (starSplits fuel pr.2).map (fun qr => (c :: (pr.1 ++ qr.1), qr.2)))) ++
          [([], c :: rest)]
      else
        [([], c :: rest)]

/--
Candidate matches of the capture group
`[^\s,.;!?]+(?:[.:][^\s,.;!?]+)*`, in backtracking preference order.
-/
def bodySplits (cs : List Char) : List (List Char × List Char) :=
  (cplusSplits cs).flatMap (fun pr =>
    (starSplits pr.2.length pr.2).map (fun qr => (pr.1 ++ qr.1, qr.2)))

/--
The `\b` assertion of the regex, evaluated between the last character
of the (non-empty) matched body and the rest of the input.
-/
def boundaryAfter (body rest : List Char) : Bool :=
  match body.getLast?, rest.head? with
  | some l, none => isWordChar l
  | some l, some c => isWordChar l != isWordChar c
  | none, _ => false

/--
First body candidate (in engine preference order) whose trailing `\b`
check succeeds: the submatch the Go engine returns for the capture
group, with the rest of the input.
-/
def tryBody (cs : List Char) : Option (List Char × List Char) :=
  (bodySplits cs).find? (fun br => boundaryAfter br.1 br.2)

/-- Match `#` followed by the body at the head of `cs`. -/
def tryHash : List Char → Option (List Char × List Char)
  | '#' :: rest => tryBody rest
  | _ => none

/--
Try to match the whole regex starting exactly at the current position:
the `^` alternative first (only at the start of the text), then the
`\s` alternative.
-/
def tryMatchAt (atStart : Bool) (cs : List Char) : Option (List Char × List Char) :=
  match (if atStart then tryHash cs else none) with
  | some br => some br
  | none =>
    match cs with
    | c :: rest => if goSpace c then tryHash rest else none
    | [] => none

/--
Model of `FindAllStringSubmatch`: scan positions left to right, return the
capture-group bodies of all non-overlapping matches, resuming after
each match.  Every scan step consumes at least one character, so
`fuel ≥ length cs` can reach the end of the input before running out.
-/
def scanTags : Nat → Bool → List Char → List (List Char)
  | 0, _, _ => []
  | fuel + 1, atStart, cs =>
    match tryMatchAt atStart cs with
    | some br => br.1 :: scanTags fuel false br.2
    | none =>
      match cs with
      | [] => []
      | _ :: rest => scanTags fuel false rest

/-- Model of `strings.TrimRight(tag, ".:")`: drop all trailing `.`/`:` characters. -/
def trimRightDotColon (l : List Char) : List Char :=
  (l.reverse.dropWhile (fun c => c = '.' || c = ':')).reverse

/-- Append if absent: deduplication in first-occurrence order. -/
def insertUnique (acc : List String) (t : String) : List String :=
  if t ∈ acc then acc else acc ++ [t]

/--
Model of `ExtractTags` (tags.go, lines 30–70): empty input short-circuits to no
tags; otherwise run the regex over the whole input, trim trailing
`.`/`:` from each captured body, skip bodies that become empty, and
deduplicate.
-/
def extractTags (content : String) : List String :=
  if content = "" then []
  else
    let bodies := scanTags content.data.length true content.data
    let trimmed := (bodies.map trimRightDotColon).filter (fun t => !t.isEmpty)
    (trimmed.map (fun t => String.mk t)).foldl insertUnique []

/-!
## Part 2: the tag index store, cache and reconciler

State model of `TagService` plus the tag files on disk
(tags.go, lines 72–400):

* the tags directory `.meta/tags/` is a finite map from tag name to
  file content; a file either parses as a JSON array of strings
  (`TagFile.good ids`) or is malformed (`TagFile.malformed`), which is
  the error source the code distinguishes (`json.Unmarshal` failure);
* `tagCache` is a finite map from tag name to a list of item IDs;
* both maps are embedded as association lists with single-occurrence
  update (`upsert`) and delete (`erase`) so that every state is
  concretely computable;
* filesystem faults other than "file does not exist" and "file does
  not parse" (`MkdirAll`, `WriteFile`, `ReadFile` I/O errors,
  `os.Remove` errors) are not modelled: in the model those operations
  succeed, matching the code's behaviour on a healthy filesystem.
  The mutex around the cache is irrelevant in this sequential model.

`models.Item` carries `ID`, `Type` and `Tags`; the remaining fields
(`Created`, `Modified`, `URL`, `Status`, `Items`) never reach the tag
subsystem and are omitted.
-/

/-- Content of one persisted tag file `<tag>.json`. -/
inductive TagFile where
  | good (ids : List String)
  | malformed
deriving DecidableEq, Repr

/-- First value bound to `k`, if any. -/
def lookupA {α : Type} (m : List (String × α)) (k : String) : Option α :=
  match m.find? (fun p => p.1 = k) with
  | some p => some p.2
  | none => none

/-- Remove every binding of `k`. -/
def eraseA {α : Type} (m : List (String × α)) (k : String) : List (String × α) :=
  m.filter (fun p => p.1 ≠ k)

/-- Map update: replace any binding of `k` by `v`. -/
def upsertA {α : Type} (m : List (String × α)) (k : String) (v : α) : List (String × α) :=
  eraseA m k ++ [(k, v)]

/-- The mutable state the tag subsystem touches: tag files and cache. -/
structure TagState where
  files : List (String × TagFile)
  cache : List (String × List String)
deriving DecidableEq, Repr

/-- Model of `models.Item`, restricted to the fields the tag subsystem reads. -/
structure Item where
  id : String
  type : String
  tags : List String
deriving DecidableEq, Repr

/-- Model of `fmt.Sprintf("%s:%s", item.ID, item.Type)` (tags.go, line 79). -/
def combinedID (item : Item) : String :=
  item.id ++ ":" ++ item.type

/-- Model of `contains` (tags.go, lines 393–400). -/
def containsStr : List String → String → Bool
  | [], _ => false
  | s :: rest, str => if s = str then true else containsStr rest str

/--
Model of `getItemIDsByTag` (tags.go, lines 266–300): cache hit returns the
cached list; a missing file is an empty list (no error, cache not
touched); a file that does not parse is an error; a good file is
returned and cached.
-/
def getItemIDsByTag (st : TagState) (tag : String) :
    Except String (List String × TagState) :=
  match lookupA st.cache tag with
  | some cachedIDs => .ok (cachedIDs, st)
  | none =>
    match lookupA st.files tag with
    | none => .ok ([], st)
    | some .malformed => .error "failed to parse tag file"
    | some (.good itemIDs) =>
      .ok (itemIDs, { st with cache := upsertA st.cache tag itemIDs })

/--
Model of `saveTagFile` (tags.go, lines 363–390): overwrite the tag's file and
update the cache entry for that tag.
-/
def saveTagFile (st : TagState) (tag : String) (itemIDs : List String) : TagState :=
  { files := upsertA st.files tag (.good itemIDs)
    cache := upsertA st.cache tag itemIDs }

/-- Model of `addItemToTag` (tags.go, lines 302–320). -/
def addItemToTag (st : TagState) (itemID tag : String) : Except String TagState :=
  match getItemIDsByTag st tag with
  | .error e => .error e
  | .ok (itemIDs, st1) =>
    if containsStr itemIDs itemID then .ok st1
    else .ok (saveTagFile st1 tag (itemIDs ++ [itemID]))

/-- Model of `removeItemFromTag` (tags.go, lines 322–360). -/
def removeItemFromTag (st : TagState) (itemID tag : String) : Except String TagState :=
  match getItemIDsByTag st tag with
  | .error e => .error e
  | .ok (itemIDs, st1) =>
    if itemIDs = [] then .ok st1
    else
      let newItemIDs := itemIDs.filter (fun i => i ≠ itemID)
      if newItemIDs = [] then
        .ok { files := eraseA st1.files tag, cache := eraseA st1.cache tag }
      else
        .ok (saveTagFile st1 tag newItemIDs)

/--
The removal loop of `UpdateItemTags` (tags.go, lines 86–93): remove
the item from every previous tag no longer present, returning the
first error; a failing call never mutates the state.
-/
def runRemovals (cid : String) (currentTags : List String) :
    List String → TagState → Except String Unit × TagState
  | [], st => (.ok (), st)
  | oldTag :: rest, st =>
    if containsStr currentTags oldTag then runRemovals cid currentTags rest st
    else
      match removeItemFromTag st cid oldTag with
      | .error e => (.error e, st)
      | .ok st' => runRemovals cid currentTags rest st'

/--
The addition loop of `UpdateItemTags` (tags.go, lines 95–100): add the
item to every current tag, returning the first error.
-/
def runAdds (cid : String) : List String → TagState → Except String Unit × TagState
  | [], st => (.ok (), st)
  | tag :: rest, st =>
    match addItemToTag st cid tag with
    | .error e => (.error e, st)
    | .ok st' => runAdds cid rest st'

/--
Model of `UpdateItemTags` (tags.go, lines 72–103): clear the whole cache, then
process all removals, then all additions, stopping at the first error.
-/
def updateItemTags (item : Item) (previousTags : List String) (st : TagState) :
    Except String Unit × TagState :=
  let currentTags := item.tags
  let cid := combinedID item
  let st0 : TagState := { st with cache := [] }
  match runRemovals cid currentTags previousTags st0 with
  | (.error e, st') => (.error e, st')
  | (.ok _, st1) => runAdds cid currentTags st1

/--
Model of `GetAllTags` (tags.go, lines 135–163): the names of the existing
`<tag>.json` files.
-/
def getAllTags (st : TagState) : List String :=
  st.files.map Prod.fst

/--
Model of `strings.Split(id, ":")` for the one-character separator `:`: the
fields of the string around every occurrence of `:`.
-/
def splitOnColon : List Char → List (List Char)
  | [] => [[]]
  | c :: rest =>
    match splitOnColon rest with
    | [] => [[c]]
    | h :: t => if c = ':' then [] :: h :: t else (c :: h) :: t

/--
The body of the resolution loop of `GetItemsByTag` (tags.go, lines
115–130): split the stored identifier on `:`; skip it unless that
yields exactly two parts; otherwise load the item (`LoadItem` is
abstracted as `load`; a load error also skips the entry).
-/
def resolveID (load : String → String → Option Item) (id : String) : Option Item :=
  match splitOnColon id.data with
  | [a, b] => load (String.mk a) (String.mk b)
  | _ => none

/--
Model of `GetItemsByTag` (tags.go, lines 106–133): read the tag's item IDs,
then resolve each one through `resolveID`.
-/
def getItemsByTag (load : String → String → Option Item) (st : TagState)
    (tag : String) : Except String (List Item × TagState) :=
  match getItemIDsByTag st tag with
  | .error e => .error e
  | .ok (itemIDs, st1) => .ok (itemIDs.filterMap (resolveID load), st1)

/--
Model of `SaveItem` (repository.go, lines 89–139), restricted to its tag flow:
tags are extracted from the content only when content is non-empty and
the item has no tags yet; reconciliation always runs, with the item's
original tags as the previous set.  Metadata/content file writes and
timestamps are outside the tag subsystem and not modelled.  Returns
the Go error, the tag state, and the item as mutated by the call.
-/
def saveItem (item : Item) (content : String) (st : TagState) :
    Except String Unit × TagState × Item :=
  let previousTags := item.tags
  let item1 :=
    if content ≠ "" ∧ item.tags = [] then { item with tags := extractTags content }
    else item
  let r := updateItemTags item1 previousTags st
  (r.1, r.2, item1)

/--
Model of `UpdateContent` (repository.go, lines 173–206), restricted to its tag
flow: always replace the item's tags by the tags extracted from the
new content, reconcile against the original tags, and on success call
`SaveItem` with empty content (which reconciles once more with
previous = current).  The content file write is modelled as
succeeding.
-/
def updateContent (item : Item) (content : String) (st : TagState) :
    Except String Unit × TagState × Item :=
  let previousTags := item.tags
  let item1 := { item with tags := extractTags content }
  match updateItemTags item1 previousTags st with
  | (.error e, st') => (.error e, st', item1)
  | (.ok _, st1) => saveItem item1 "" st1

/--
Modelled from the spec: the character set §4.1 allows in a tag body —
letters, digits, and `.`, `:`, `-`, `_`, `+`.  Used only to compare
the specified grammar with the implemented one.
-/
def specAllowedChar (c : Char) : Bool :=
  c.isAlpha || c.isDigit || c = '.' || c = ':' || c = '-' || c = '_' || c = '+'

/--
Cache coherence: every cached entry agrees with a well-formed file.
-/
def Coh (st : TagState) : Prop :=
  ∀ t ids, lookupA st.cache t = some ids → lookupA st.files t = some (.good ids)

/--
Store invariant: no tag file holds an empty member list.
-/
def goodFiles (st : TagState) : Prop :=
  ∀ t ids, lookupA st.files t = some (.good ids) → ids ≠ []

/--
State in which `tag`'s file is malformed and `tag` has no cache entry: the situation
in which every read of `tag` fails.
-/
def MalInv (tag : String) (st : TagState) : Prop :=
  lookupA st.files tag = some .malformed ∧ lookupA st.cache tag = none

/-!
## Part 3: lemmas about the extractor
-/

theorem takeRun_fst_chars (cs : List Char) : ∀ c ∈ (takeRun cs).1, isTagChar c := by
  induction cs with
  | nil => simp [takeRun]
  | cons c rest ih =>
    by_cases h : isTagChar c
    · simpa [takeRun, h] using ih
    · simp [takeRun, h]

theorem splitsDesc_mem_chars :
    ∀ (p rest : List Char) pr, pr ∈ splitsDesc p rest → ∀ c ∈ pr.1, c ∈ p := by
  intro p
  induction p with
  | nil => simp [splitsDesc]
  | cons a p ih =>
    cases p with
    | nil =>
      intro rest pr hpr c hc
      simp [splitsDesc] at hpr
      subst hpr
      simpa using hc
    | cons b p' =>
      intro rest pr hpr c hc
      simp only [splitsDesc, List.mem_append, List.mem_map, List.mem_singleton] at hpr
      rcases hpr with ⟨qr, hqr, rfl⟩ | rfl
      · simp only [List.mem_cons] at hc
        rcases hc with rfl | hc'
        · simp
        · have := ih rest qr hqr c hc'
          simp only [List.mem_cons] at this ⊢
          tauto
      · simp at hc
        simp [hc]

theorem cplusSplits_mem_chars (cs : List Char) (pr : List Char × List Char)
    (hpr : pr ∈ cplusSplits cs) : ∀ c ∈ pr.1, isTagChar c := by
  intro c hc
  exact takeRun_fst_chars cs c (splitsDesc_mem_chars _ _ pr hpr c hc)

theorem starSplits_mem_chars :
    ∀ (fuel : Nat) (cs : List Char) pr, pr ∈ starSplits fuel cs →
      ∀ c ∈ pr.1, isTagChar c = true ∨ c = '.' := by
  intro fuel
  induction fuel with
  | zero => simp [starSplits]
  | succ fuel ih =>
    intro cs pr hpr c hc
    match cs with
    | [] =>
      simp [starSplits] at hpr
      subst hpr
      simp at hc
    | d :: rest =>
      by_cases hd : d = '.' ∨ d = ':'
      · have hcond : (d = '.' || d = ':') = true := by
          rcases hd with h | h <;> simp [h]
        simp only [starSplits, hcond, if_true, List.mem_append, List.mem_flatMap,
          List.mem_map, List.mem_singleton] at hpr
        rcases hpr with ⟨p1, hp1, qr, hqr, rfl⟩ | rfl
        · simp only [List.mem_cons, List.mem_append] at hc
          rcases hc with rfl | hc | hc
          · rcases hd with h | h
            · exact Or.inr h
            · exact Or.inl (by simp [h, isTagChar, goSpace])
          · exact Or.inl (cplusSplits_mem_chars _ _ hp1 c hc)
          · exact ih _ _ hqr c hc
        · simp at hc
      · have hcond : (d = '.' || d = ':') = false := by
          simp only [not_or] at hd
          simp [hd.1, hd.2]
        simp [starSplits, hcond] at hpr
        subst hpr
        simp at hc

theorem bodySplits_mem_chars (cs : List Char) (pr : List Char × List Char)
    (hpr : pr ∈ bodySplits cs) : ∀ c ∈ pr.1, isTagChar c = true ∨ c = '.' := by
  intro c hc
  simp only [bodySplits, List.mem_flatMap, List.mem_map] at hpr
  rcases hpr with ⟨p1, hp1, qr, hqr, rfl⟩
  simp only [List.mem_append] at hc
  rcases hc with hc | hc
  · exact Or.inl (cplusSplits_mem_chars _ _ hp1 c hc)
  · exact starSplits_mem_chars _ _ _ hqr c hc

theorem tryBody_mem_chars (cs : List Char) (br : List Char × List Char)
    (hbr : tryBody cs = some br) : ∀ c ∈ br.1, isTagChar c = true ∨ c = '.' :=
  bodySplits_mem_chars cs br (List.mem_of_find?_eq_some hbr)

theorem tryHash_mem_chars (cs : List Char) (br : List Char × List Char)
    (hbr : tryHash cs = some br) : ∀ c ∈ br.1, isTagChar c = true ∨ c = '.' := by
  unfold tryHash at hbr
  split at hbr
  · exact tryBody_mem_chars _ br hbr
  · exact absurd hbr (by simp)

theorem tryMatchAt_mem_chars (atStart : Bool) (cs : List Char)
    (br : List Char × List Char) (hbr : tryMatchAt atStart cs = some br) :
    ∀ c ∈ br.1, isTagChar c = true ∨ c = '.' := by
  unfold tryMatchAt at hbr
  rcases h1 : (if atStart then tryHash cs else none) with _ | br'
  · rw [h1] at hbr
    match cs with
    | [] => simp at hbr
    | c :: rest =>
      by_cases hsp : goSpace c
      · simp only [hsp, if_true] at hbr
        exact tryHash_mem_chars rest br hbr
      · simp [hsp] at hbr
  · rw [h1] at hbr
    simp only at hbr
    cases hbr
    split at h1
    · exact tryHash_mem_chars cs br h1
    · exact absurd h1 (by simp)

theorem scanTags_mem_chars :
    ∀ (fuel : Nat) (atStart : Bool) (cs : List Char) b,
      b ∈ scanTags fuel atStart cs → ∀ c ∈ b, isTagChar c = true ∨ c = '.' := by
  intro fuel
  induction fuel with
  | zero => simp [scanTags]
  | succ fuel ih =>
    intro atStart cs b hb c hc
    rcases hm : tryMatchAt atStart cs with _ | br
    · match cs with
      | [] => simp [scanTags, hm] at hb
      | _ :: rest =>
        simp only [scanTags, hm] at hb
        exact ih false rest b hb c hc
    · simp only [scanTags, hm, List.mem_cons] at hb
      rcases hb with rfl | hb
      · exact tryMatchAt_mem_chars atStart cs br hm c hc
      · exact ih false br.2 b hb c hc

theorem trimRight_mem (l : List Char) : ∀ c ∈ trimRightDotColon l, c ∈ l := by
  intro c hc
  simp only [trimRightDotColon, List.mem_reverse] at hc
  have := (List.dropWhile_sublist (l := l.reverse)
    (p := fun c => c = '.' || c = ':')).mem hc
  simpa using this

theorem dropWhile_head_false {p : Char → Bool} :
    ∀ (l : List Char) (c : Char), (l.dropWhile p).head? = some c → p c = false := by
  intro l
  induction l with
  | nil => simp [List.dropWhile]
  | cons a l ih =>
    intro c hc
    by_cases h : p a
    · rw [List.dropWhile_cons_of_pos h] at hc
      exact ih c hc
    · rw [List.dropWhile_cons_of_neg h] at hc
      simp at hc
      subst hc
      simpa using h

theorem trimRight_getLast (l : List Char) (c : Char)
    (hc : (trimRightDotColon l).getLast? = some c) : c ≠ '.' ∧ c ≠ ':' := by
  have h1 : (l.reverse.dropWhile (fun c => c = '.' || c = ':')).head? = some c := by
    simpa [trimRightDotColon, List.getLast?_reverse] using hc
  have := dropWhile_head_false _ _ h1
  constructor
  · intro h; rw [h] at this; simp at this
  · intro h; rw [h] at this; simp at this

theorem mem_foldl_insertUnique :
    ∀ (l : List String) (acc : List String) (x : String),
      x ∈ l.foldl insertUnique acc → x ∈ acc ∨ x ∈ l := by
  intro l
  induction l with
  | nil => intro acc x h; exact Or.inl h
  | cons a l ih =>
    intro acc x h
    simp only [List.foldl_cons] at h
    rcases ih (insertUnique acc a) x h with h' | h'
    · by_cases ha : a ∈ acc
      · simp [insertUnique, ha] at h'
        exact Or.inl h'
      · simp only [insertUnique, ha, if_false, List.mem_append, List.mem_singleton] at h'
        rcases h' with h' | rfl
        · exact Or.inl h'
        · exact Or.inr (by simp)
    · exact Or.inr (by simp [h'])

theorem nodup_foldl_insertUnique :
    ∀ (l : List String) (acc : List String), acc.Nodup →
      (l.foldl insertUnique acc).Nodup := by
  intro l
  induction l with
  | nil => intro acc h; exact h
  | cons a l ih =>
    intro acc h
    simp only [List.foldl_cons]
    apply ih
    by_cases ha : a ∈ acc
    · simpa [insertUnique, ha]
    · simp [insertUnique, ha, List.nodup_append, h]

/--
Every extracted tag is the string of a non-empty character list whose
characters all lie in the regex class `[^\s,.;!?]` or are `.`, and
whose last character is neither `.` nor `:`.
-/
theorem extractTags_shape (s : String) (t : String) (ht : t ∈ extractTags s) :
    ∃ l : List Char, t = String.mk l ∧ l ≠ [] ∧
      (∀ c ∈ l, isTagChar c = true ∨ c = '.') ∧
      (∀ c, l.getLast? = some c → c ≠ '.' ∧ c ≠ ':') := by
  by_cases hs : s = ""
  · subst hs
    simp [extractTags] at ht
  · simp only [extractTags, hs, if_false] at ht
    rcases mem_foldl_insertUnique _ _ _ ht with h | h
    · simp at h
    · simp only [List.mem_map, List.mem_filter] at h
      rcases h with ⟨l, ⟨hl, hne⟩, rfl⟩
      rcases hl with ⟨b, hb, rfl⟩
      refine ⟨trimRightDotColon b, rfl, ?_, ?_, ?_⟩
      · intro h
        rw [h] at hne
        simp at hne
      · intro c hc
        exact scanTags_mem_chars _ _ _ b hb c (trimRight_mem b c hc)
      · intro c hc
        exact trimRight_getLast b c hc

/-!
## Part 4: lemmas about the store, cache and reconciler
-/

theorem lookupA_cons {α : Type} (p : String × α) (m : List (String × α)) (k : String) :
    lookupA (p :: m) k = if p.1 = k then some p.2 else lookupA m k := by
  by_cases h : p.1 = k <;> simp [lookupA, List.find?, h]

theorem lookupA_eq_none {α : Type} (m : List (String × α)) (k : String) :
    lookupA m k = none ↔ k ∉ m.map Prod.fst := by
  induction m with
  | nil => simp [lookupA]
  | cons p m ih =>
    rw [lookupA_cons]
    by_cases h : p.1 = k
    · simp [h]
    · simp [h, ih, Ne.symm h]

theorem lookupA_erase_self {α : Type} (m : List (String × α)) (k : String) :
    lookupA (eraseA m k) k = none := by
  induction m with
  | nil => rfl
  | cons p m ih =>
    by_cases h : p.1 = k
    · simpa [eraseA, h] using ih
    · simpa [eraseA, h, lookupA_cons] using ih

theorem lookupA_erase_other {α : Type} (m : List (String × α)) (k k' : String)
    (h : k' ≠ k) : lookupA (eraseA m k) k' = lookupA m k' := by
  induction m with
  | nil => rfl
  | cons p m ih =>
    by_cases hp : p.1 = k
    · rw [show eraseA (p :: m) k = eraseA m k by simp [eraseA, hp],
        lookupA_cons, if_neg (by rw [hp]; exact fun e => h e.symm)]
      exact ih
    · rw [show eraseA (p :: m) k = p :: eraseA m k by simp [eraseA, hp],
        lookupA_cons, lookupA_cons]
      by_cases hk : p.1 = k' <;> simp [hk, ih]

theorem lookupA_append {α : Type} (m m' : List (String × α)) (k : String) :
    lookupA (m ++ m') k =
      match lookupA m k with
      | some v => some v
      | none => lookupA m' k := by
  induction m with
  | nil => simp [lookupA]
  | cons p m ih =>
    by_cases h : p.1 = k <;> simp [lookupA_cons, h, ih]

theorem lookupA_upsert_self {α : Type} (m : List (String × α)) (k : String) (v : α) :
    lookupA (upsertA m k v) k = some v := by
  rw [upsertA, lookupA_append, lookupA_erase_self]
  simp [lookupA_cons]

theorem lookupA_upsert_other {α : Type} (m : List (String × α)) (k k' : String)
    (v : α) (h : k' ≠ k) : lookupA (upsertA m k v) k' = lookupA m k' := by
  rw [upsertA, lookupA_append, lookupA_erase_other m k k' h]
  cases hm : lookupA m k' with
  | some w => rfl
  | none => simp [lookupA_cons, Ne.symm h, lookupA]

theorem containsStr_iff (l : List String) (s : String) :
    containsStr l s = true ↔ s ∈ l := by
  induction l with
  | nil => simp [containsStr]
  | cons a l ih =>
    by_cases h : a = s
    · simp [containsStr, h]
    · rw [show containsStr (a :: l) s = containsStr l s by simp [containsStr, h], ih]
      constructor
      · exact fun hs => List.mem_cons_of_mem _ hs
      · intro hs
        rcases List.mem_cons.mp hs with rfl | hs
        · exact absurd rfl h
        · exact hs

/--
Case analysis of `getItemIDsByTag`, following its four source branches.
-/
theorem getItemIDs_cases (st : TagState) (tag : String) :
    (∃ ids, lookupA st.cache tag = some ids ∧
      getItemIDsByTag st tag = .ok (ids, st)) ∨
    (lookupA st.cache tag = none ∧ lookupA st.files tag = none ∧
      getItemIDsByTag st tag = .ok ([], st)) ∨
    (∃ ids, lookupA st.cache tag = none ∧
      lookupA st.files tag = some (.good ids) ∧
      getItemIDsByTag st tag =
        .ok (ids, { st with cache := upsertA st.cache tag ids })) ∨
    (lookupA st.cache tag = none ∧ lookupA st.files tag = some .malformed ∧
      getItemIDsByTag st tag = .error "failed to parse tag file") := by
  unfold getItemIDsByTag
  rcases hc : lookupA st.cache tag with _ | cids
  · rcases hf : lookupA st.files tag with _ | tf
    · exact Or.inr (Or.inl ⟨rfl, rfl, rfl⟩)
    · cases tf with
      | good ids => exact Or.inr (Or.inr (Or.inl ⟨ids, rfl, rfl, rfl⟩))
      | malformed => exact Or.inr (Or.inr (Or.inr ⟨rfl, rfl, rfl⟩))
  · exact Or.inl ⟨cids, rfl, rfl⟩

theorem getItemIDs_ok_files (st : TagState) (tag : String) (ids : List String)
    (st1 : TagState) (h : getItemIDsByTag st tag = .ok (ids, st1)) :
    st1.files = st.files := by
  rcases getItemIDs_cases st tag with ⟨i, _, he⟩ | ⟨_, _, he⟩ | ⟨i, _, _, he⟩ | ⟨_, _, he⟩ <;>
    rw [he] at h <;> cases h <;> rfl

theorem getItemIDs_ok_cache_other (st : TagState) (tag : String) (ids : List String)
    (st1 : TagState) (h : getItemIDsByTag st tag = .ok (ids, st1)) :
    ∀ t, t ≠ tag → lookupA st1.cache t = lookupA st.cache t := by
  rcases getItemIDs_cases st tag with ⟨i, _, he⟩ | ⟨_, _, he⟩ | ⟨i, _, _, he⟩ | ⟨_, _, he⟩ <;>
    rw [he] at h <;> cases h
  · exact fun t ht => rfl
  · exact fun t ht => rfl
  · exact fun t ht => lookupA_upsert_other _ _ _ _ ht

theorem getItemIDs_ok_coh (st : TagState) (tag : String) (ids : List String)
    (st1 : TagState) (hcoh : Coh st) (h : getItemIDsByTag st tag = .ok (ids, st1)) :
    Coh st1 := by
  rcases getItemIDs_cases st tag with ⟨i, _, he⟩ | ⟨_, _, he⟩ | ⟨i, _, hf, he⟩ | ⟨_, _, he⟩ <;>
    rw [he] at h <;> cases h
  · exact hcoh
  · exact hcoh
  · intro t tids hct
    by_cases ht : t = tag
    · subst ht
      rw [lookupA_upsert_self] at hct
      cases hct
      exact hf
    · rw [lookupA_upsert_other _ _ _ _ ht] at hct
      exact hcoh t tids hct

theorem getItemIDs_ok_reads (st : TagState) (tag : String) (ids : List String)
    (st1 : TagState) (hcoh : Coh st) (h : getItemIDsByTag st tag = .ok (ids, st1)) :
    lookupA st.files tag = some (.good ids) ∨
      (ids = [] ∧ lookupA st.files tag = none) := by
  rcases getItemIDs_cases st tag with ⟨i, hc, he⟩ | ⟨_, hf, he⟩ | ⟨i, _, hf, he⟩ | ⟨_, _, he⟩ <;>
    rw [he] at h <;> cases h
  · exact Or.inl (hcoh tag ids hc)
  · exact Or.inr ⟨rfl, hf⟩
  · exact Or.inl hf

theorem getItemIDs_of_good (st : TagState) (tag : String) (ids : List String)
    (hcoh : Coh st) (hf : lookupA st.files tag = some (.good ids)) :
    ∃ st1, getItemIDsByTag st tag = .ok (ids, st1) := by
  rcases getItemIDs_cases st tag with ⟨i, hc, he⟩ | ⟨_, hf', _⟩ | ⟨i, _, hf', he⟩ | ⟨_, hf', _⟩
  · have := hcoh tag i hc
    rw [hf] at this
    cases this
    exact ⟨st, he⟩
  · rw [hf] at hf'; cases hf'
  · rw [hf] at hf'
    cases hf'
    exact ⟨_, he⟩
  · rw [hf] at hf'; cases hf'

theorem getItemIDs_malformed (st : TagState) (tag : String)
    (hc : lookupA st.cache tag = none)
    (hf : lookupA st.files tag = some .malformed) :
    getItemIDsByTag st tag = .error "failed to parse tag file" := by
  unfold getItemIDsByTag
  rw [hc, hf]

theorem getItemIDs_none (st : TagState) (tag : String)
    (hc : lookupA st.cache tag = none) (hf : lookupA st.files tag = none) :
    getItemIDsByTag st tag = .ok ([], st) := by
  unfold getItemIDsByTag
  rw [hc, hf]

theorem saveTagFile_coh (st : TagState) (tag : String) (ids : List String)
    (hcoh : Coh st) : Coh (saveTagFile st tag ids) := by
  intro t tids hct
  by_cases ht : t = tag
  · subst ht
    rw [saveTagFile] at hct ⊢
    simp only at hct ⊢
    rw [lookupA_upsert_self] at hct
    cases hct
    rw [lookupA_upsert_self]
  · rw [saveTagFile] at hct ⊢
    simp only at hct ⊢
    rw [lookupA_upsert_other _ _ _ _ ht] at hct
    rw [lookupA_upsert_other _ _ _ _ ht]
    exact hcoh t tids hct

theorem addItemToTag_ok_files_other (st : TagState) (cid tag : String)
    (st' : TagState) (h : addItemToTag st cid tag = .ok st') :
    ∀ t, t ≠ tag → lookupA st'.files t = lookupA st.files t := by
  intro t ht
  unfold addItemToTag at h
  rcases hg : getItemIDsByTag st tag with e | ⟨ids0, st1⟩
  · rw [hg] at h; cases h
  · rw [hg] at h
    have hfiles := getItemIDs_ok_files st tag ids0 st1 hg
    by_cases hm : containsStr ids0 cid
    · simp only [hm, if_true] at h
      cases h
      rw [hfiles]
    · simp only [hm, if_false] at h
      cases h
      rw [saveTagFile]
      simp only
      rw [lookupA_upsert_other _ _ _ _ ht, hfiles]

theorem addItemToTag_ok_coh (st : TagState) (cid tag : String) (st' : TagState)
    (hcoh : Coh st) (h : addItemToTag st cid tag = .ok st') : Coh st' := by
  unfold addItemToTag at h
  rcases hg : getItemIDsByTag st tag with e | ⟨ids0, st1⟩
  · rw [hg] at h; cases h
  · rw [hg] at h
    have hcoh1 := getItemIDs_ok_coh st tag ids0 st1 hcoh hg
    by_cases hm : containsStr ids0 cid
    · simp only [hm, if_true] at h
      cases h
      exact hcoh1
    · simp only [hm, if_false] at h
      cases h
      exact saveTagFile_coh st1 tag _ hcoh1

theorem addItemToTag_ok_goodFiles (st : TagState) (cid tag : String) (st' : TagState)
    (hg : goodFiles st) (h : addItemToTag st cid tag = .ok st') : goodFiles st' := by
  unfold addItemToTag at h
  rcases hge : getItemIDsByTag st tag with e | ⟨ids0, st1⟩
  · rw [hge] at h; cases h
  · rw [hge] at h
    have hfiles := getItemIDs_ok_files st tag ids0 st1 hge
    by_cases hm : containsStr ids0 cid
    · simp only [hm, if_true] at h
      cases h
      intro t ids hl
      rw [hfiles] at hl
      exact hg t ids hl
    · simp only [hm, if_false] at h
      cases h
      intro t ids hl
      rw [saveTagFile] at hl
      simp only at hl
      by_cases ht : t = tag
      · subst ht
        rw [lookupA_upsert_self] at hl
        cases hl
        simp
      · rw [lookupA_upsert_other _ _ _ _ ht, hfiles] at hl
        exact hg t ids hl

theorem addItemToTag_member_noop (st : TagState) (cid tag : String)
    (ids : List String) (hcoh : Coh st)
    (hf : lookupA st.files tag = some (.good ids))
    (hm : containsStr ids cid = true) :
    ∃ st', addItemToTag st cid tag = .ok st' ∧ st'.files = st.files ∧ Coh st' := by
  rcases getItemIDs_of_good st tag ids hcoh hf with ⟨st1, hg⟩
  refine ⟨st1, ?_, getItemIDs_ok_files st tag ids st1 hg,
    getItemIDs_ok_coh st tag ids st1 hcoh hg⟩
  unfold addItemToTag
  rw [hg]
  simp [hm]

theorem removeItemFromTag_ok_files_other (st : TagState) (cid tag : String)
    (st' : TagState) (h : removeItemFromTag st cid tag = .ok st') :
    ∀ t, t ≠ tag → lookupA st'.files t = lookupA st.files t := by
  intro t ht
  unfold removeItemFromTag at h
  rcases hg : getItemIDsByTag st tag with e | ⟨ids0, st1⟩
  · rw [hg] at h; cases h
  · rw [hg] at h
    have hfiles := getItemIDs_ok_files st tag ids0 st1 hg
    by_cases hnil : ids0 = []
    · simp only [hnil, if_true] at h
      cases h
      rw [hfiles]
    · simp only [hnil, if_false] at h
      by_cases hnew : ids0.filter (fun i => i ≠ cid) = []
      · simp only [hnew, if_true] at h
        cases h
        simp only
        rw [lookupA_erase_other _ _ _ ht, hfiles]
      · simp only [hnew, if_false] at h
        cases h
        rw [saveTagFile]
        simp only
        rw [lookupA_upsert_other _ _ _ _ ht, hfiles]

theorem removeItemFromTag_ok_coh (st : TagState) (cid tag : String) (st' : TagState)
    (hcoh : Coh st) (h : removeItemFromTag st cid tag = .ok st') : Coh st' := by
  unfold removeItemFromTag at h
  rcases hg : getItemIDsByTag st tag with e | ⟨ids0, st1⟩
  · rw [hg] at h; cases h
  · rw [hg] at h
    have hcoh1 := getItemIDs_ok_coh st tag ids0 st1 hcoh hg
    by_cases hnil : ids0 = []
    · simp only [hnil, if_true] at h
      cases h
      exact hcoh1
    · simp only [hnil, if_false] at h
      by_cases hnew : ids0.filter (fun i => i ≠ cid) = []
      · simp only [hnew, if_true] at h
        cases h
        intro t tids hct
        simp only at hct ⊢
        by_cases ht : t = tag
        · subst ht
          rw [lookupA_erase_self] at hct
          cases hct
        · rw [lookupA_erase_other _ _ _ ht] at hct
          rw [lookupA_erase_other _ _ _ ht]
          exact hcoh1 t tids hct
      · simp only [hnew, if_false] at h
        cases h
        exact saveTagFile_coh st1 tag _ hcoh1

theorem removeItemFromTag_ok_goodFiles (st : TagState) (cid tag : String)
    (st' : TagState) (hg : goodFiles st) (h : removeItemFromTag st cid tag = .ok st') :
    goodFiles st' := by
  unfold removeItemFromTag at h
  rcases hge : getItemIDsByTag st tag with e | ⟨ids0, st1⟩
  · rw [hge] at h; cases h
  · rw [hge] at h
    have hfiles := getItemIDs_ok_files st tag ids0 st1 hge
    by_cases hnil : ids0 = []
    · simp only [hnil, if_true] at h
      cases h
      intro t ids hl
      rw [hfiles] at hl
      exact hg t ids hl
    · simp only [hnil, if_false] at h
      by_cases hnew : ids0.filter (fun i => i ≠ cid) = []
      · simp only [hnew, if_true] at h
        cases h
        intro t ids hl
        simp only at hl
        by_cases ht : t = tag
        · subst ht
          rw [lookupA_erase_self] at hl
          cases hl
        · rw [lookupA_erase_other _ _ _ ht, hfiles] at hl
          exact hg t ids hl
      · simp only [hnew, if_false] at h
        cases h
        intro t ids hl
        rw [saveTagFile] at hl
        simp only at hl
        by_cases ht : t = tag
        · subst ht
          rw [lookupA_upsert_self] at hl
          cases hl
          exact hnew
        · rw [lookupA_upsert_other _ _ _ _ ht, hfiles] at hl
          exact hg t ids hl

theorem removeItemFromTag_deletes (st : TagState) (cid tag : String)
    (ids : List String) (hcoh : Coh st)
    (hf : lookupA st.files tag = some (.good ids)) (hne : ids ≠ [])
    (hfilter : ids.filter (fun i => i ≠ cid) = []) :
    ∃ st', removeItemFromTag st cid tag = .ok st' ∧
      lookupA st'.files tag = none ∧ Coh st' := by
  rcases getItemIDs_of_good st tag ids hcoh hf with ⟨st1, hg⟩
  have hcoh1 := getItemIDs_ok_coh st tag ids st1 hcoh hg
  refine ⟨{ files := eraseA st1.files tag, cache := eraseA st1.cache tag }, ?_, ?_, ?_⟩
  · unfold removeItemFromTag
    rw [hg]
    have hfilter' : List.filter (fun i => !decide (i = cid)) ids = [] := by
      simpa using hfilter
    simp [hne, hfilter']
  · simp only
    rw [lookupA_erase_self]
  · intro t tids hct
    simp only at hct ⊢
    by_cases ht : t = tag
    · subst ht
      rw [lookupA_erase_self] at hct
      cases hct
    · rw [lookupA_erase_other _ _ _ ht] at hct
      rw [lookupA_erase_other _ _ _ ht]
      exact hcoh1 t tids hct

theorem addItemToTag_ok_cache_other (st : TagState) (cid tag : String)
    (st' : TagState) (h : addItemToTag st cid tag = .ok st') :
    ∀ t, t ≠ tag → lookupA st'.cache t = lookupA st.cache t := by
  intro t ht
  unfold addItemToTag at h
  rcases hg : getItemIDsByTag st tag with e | ⟨ids0, st1⟩
  · rw [hg] at h; cases h
  · rw [hg] at h
    have hcache := getItemIDs_ok_cache_other st tag ids0 st1 hg t ht
    by_cases hm : containsStr ids0 cid
    · simp only [hm, if_true] at h
      cases h
      exact hcache
    · simp only [hm, if_false] at h
      cases h
      rw [saveTagFile]
      simp only
      rw [lookupA_upsert_other _ _ _ _ ht, hcache]

theorem removeItemFromTag_ok_cache_other (st : TagState) (cid tag : String)
    (st' : TagState) (h : removeItemFromTag st cid tag = .ok st') :
    ∀ t, t ≠ tag → lookupA st'.cache t = lookupA st.cache t := by
  intro t ht
  unfold removeItemFromTag at h
  rcases hg : getItemIDsByTag st tag with e | ⟨ids0, st1⟩
  · rw [hg] at h; cases h
  · rw [hg] at h
    have hcache := getItemIDs_ok_cache_other st tag ids0 st1 hg t ht
    by_cases hnil : ids0 = []
    · simp only [hnil, if_true] at h
      cases h
      exact hcache
    · simp only [hnil, if_false] at h
      by_cases hnew : ids0.filter (fun i => i ≠ cid) = []
      · simp only [hnew, if_true] at h
        cases h
        simp only
        rw [lookupA_erase_other _ _ _ ht, hcache]
      · simp only [hnew, if_false] at h
        cases h
        rw [saveTagFile]
        simp only
        rw [lookupA_upsert_other _ _ _ _ ht, hcache]

theorem addItemToTag_malinv (st : TagState) (cid tag t : String)
    (st' : TagState) (hinv : MalInv t st) (h : addItemToTag st cid tag = .ok st') :
    MalInv t st' := by
  by_cases ht : t = tag
  · rw [← ht] at h
    unfold addItemToTag at h
    rw [getItemIDs_malformed st t hinv.2 hinv.1] at h
    cases h
  · exact ⟨by rw [addItemToTag_ok_files_other st cid tag st' h t ht]; exact hinv.1,
      by rw [addItemToTag_ok_cache_other st cid tag st' h t ht]; exact hinv.2⟩

theorem removeItemFromTag_malinv (st : TagState) (cid tag t : String)
    (st' : TagState) (hinv : MalInv t st) (h : removeItemFromTag st cid tag = .ok st') :
    MalInv t st' := by
  by_cases ht : t = tag
  · rw [← ht] at h
    unfold removeItemFromTag at h
    rw [getItemIDs_malformed st t hinv.2 hinv.1] at h
    cases h
  · exact ⟨by rw [removeItemFromTag_ok_files_other st cid tag st' h t ht]; exact hinv.1,
      by rw [removeItemFromTag_ok_cache_other st cid tag st' h t ht]; exact hinv.2⟩

theorem runRemovals_files_contains (cid : String) (cur : List String) :
    ∀ (ts : List String) (st : TagState) (t : String), containsStr cur t = true →
      lookupA (runRemovals cid cur ts st).2.files t = lookupA st.files t := by
  intro ts
  induction ts with
  | nil => intro st t _; rfl
  | cons oldTag rest ih =>
    intro st t hcur
    by_cases hc : containsStr cur oldTag
    · rw [show runRemovals cid cur (oldTag :: rest) st = runRemovals cid cur rest st by
        simp [runRemovals, hc]]
      exact ih st t hcur
    · have hne : oldTag ≠ t := fun e => hc (e ▸ hcur)
      rcases hr : removeItemFromTag st cid oldTag with e | st'
      · rw [show runRemovals cid cur (oldTag :: rest) st = (.error e, st) by
          simp [runRemovals, hc, hr]]
      · rw [show runRemovals cid cur (oldTag :: rest) st = runRemovals cid cur rest st' by
          simp [runRemovals, hc, hr]]
        rw [ih st' t hcur]
        exact removeItemFromTag_ok_files_other st cid oldTag st' hr t (Ne.symm hne)

theorem runRemovals_coh (cid : String) (cur : List String) :
    ∀ (ts : List String) (st : TagState), Coh st →
      Coh (runRemovals cid cur ts st).2 := by
  intro ts
  induction ts with
  | nil => intro st h; exact h
  | cons oldTag rest ih =>
    intro st hcoh
    by_cases hc : containsStr cur oldTag
    · rw [show runRemovals cid cur (oldTag :: rest) st = runRemovals cid cur rest st by
        simp [runRemovals, hc]]
      exact ih st hcoh
    · rcases hr : removeItemFromTag st cid oldTag with e | st'
      · rw [show runRemovals cid cur (oldTag :: rest) st = (.error e, st) by
          simp [runRemovals, hc, hr]]
        exact hcoh
      · rw [show runRemovals cid cur (oldTag :: rest) st = runRemovals cid cur rest st' by
          simp [runRemovals, hc, hr]]
        exact ih st' (removeItemFromTag_ok_coh st cid oldTag st' hcoh hr)

theorem runRemovals_goodFiles (cid : String) (cur : List String) :
    ∀ (ts : List String) (st : TagState), goodFiles st →
      goodFiles (runRemovals cid cur ts st).2 := by
  intro ts
  induction ts with
  | nil => intro st h; exact h
  | cons oldTag rest ih =>
    intro st hg
    by_cases hc : containsStr cur oldTag
    · rw [show runRemovals cid cur (oldTag :: rest) st = runRemovals cid cur rest st by
        simp [runRemovals, hc]]
      exact ih st hg
    · rcases hr : removeItemFromTag st cid oldTag with e | st'
      · rw [show runRemovals cid cur (oldTag :: rest) st = (.error e, st) by
          simp [runRemovals, hc, hr]]
        exact hg
      · rw [show runRemovals cid cur (oldTag :: rest) st = runRemovals cid cur rest st' by
          simp [runRemovals, hc, hr]]
        exact ih st' (removeItemFromTag_ok_goodFiles st cid oldTag st' hg hr)

theorem runRemovals_malinv (cid : String) (cur : List String) (t : String) :
    ∀ (ts : List String) (st : TagState), MalInv t st →
      MalInv t (runRemovals cid cur ts st).2 := by
  intro ts
  induction ts with
  | nil => intro st h; exact h
  | cons oldTag rest ih =>
    intro st hinv
    by_cases hc : containsStr cur oldTag
    · rw [show runRemovals cid cur (oldTag :: rest) st = runRemovals cid cur rest st by
        simp [runRemovals, hc]]
      exact ih st hinv
    · rcases hr : removeItemFromTag st cid oldTag with e | st'
      · rw [show runRemovals cid cur (oldTag :: rest) st = (.error e, st) by
          simp [runRemovals, hc, hr]]
        exact hinv
      · rw [show runRemovals cid cur (oldTag :: rest) st = runRemovals cid cur rest st' by
          simp [runRemovals, hc, hr]]
        exact ih st' (removeItemFromTag_malinv st cid oldTag t st' hinv hr)

theorem runAdds_coh (cid : String) :
    ∀ (ts : List String) (st : TagState), Coh st → Coh (runAdds cid ts st).2 := by
  intro ts
  induction ts with
  | nil => intro st h; exact h
  | cons tag rest ih =>
    intro st hcoh
    rcases hr : addItemToTag st cid tag with e | st'
    · rw [show runAdds cid (tag :: rest) st = (.error e, st) by simp [runAdds, hr]]
      exact hcoh
    · rw [show runAdds cid (tag :: rest) st = runAdds cid rest st' by simp [runAdds, hr]]
      exact ih st' (addItemToTag_ok_coh st cid tag st' hcoh hr)

theorem runAdds_goodFiles (cid : String) :
    ∀ (ts : List String) (st : TagState), goodFiles st →
      goodFiles (runAdds cid ts st).2 := by
  intro ts
  induction ts with
  | nil => intro st h; exact h
  | cons tag rest ih =>
    intro st hg
    rcases hr : addItemToTag st cid tag with e | st'
    · rw [show runAdds cid (tag :: rest) st = (.error e, st) by simp [runAdds, hr]]
      exact hg
    · rw [show runAdds cid (tag :: rest) st = runAdds cid rest st' by simp [runAdds, hr]]
      exact ih st' (addItemToTag_ok_goodFiles st cid tag st' hg hr)

theorem runAdds_malinv (cid t : String) :
    ∀ (ts : List String) (st : TagState), MalInv t st →
      MalInv t (runAdds cid ts st).2 := by
  intro ts
  induction ts with
  | nil => intro st h; exact h
  | cons tag rest ih =>
    intro st hinv
    rcases hr : addItemToTag st cid tag with e | st'
    · rw [show runAdds cid (tag :: rest) st = (.error e, st) by simp [runAdds, hr]]
      exact hinv
    · rw [show runAdds cid (tag :: rest) st = runAdds cid rest st' by simp [runAdds, hr]]
      exact ih st' (addItemToTag_malinv st cid tag t st' hinv hr)

theorem runAdds_files_member (cid : String) :
    ∀ (ts : List String) (st : TagState) (t : String) (ids : List String), Coh st →
      lookupA st.files t = some (.good ids) → containsStr ids cid = true →
      lookupA (runAdds cid ts st).2.files t = some (.good ids) := by
  intro ts
  induction ts with
  | nil => intro st t ids _ hf _; exact hf
  | cons tag rest ih =>
    intro st t ids hcoh hf hm
    by_cases ht : tag = t
    · subst ht
      rcases addItemToTag_member_noop st cid tag ids hcoh hf hm with ⟨st', hr, hfe, hcoh'⟩
      rw [show runAdds cid (tag :: rest) st = runAdds cid rest st' by simp [runAdds, hr]]
      exact ih st' tag ids hcoh' (by rw [hfe]; exact hf) hm
    · rcases hr : addItemToTag st cid tag with e | st'
      · rw [show runAdds cid (tag :: rest) st = (.error e, st) by simp [runAdds, hr]]
        exact hf
      · rw [show runAdds cid (tag :: rest) st = runAdds cid rest st' by simp [runAdds, hr]]
        exact ih st' t ids (addItemToTag_ok_coh st cid tag st' hcoh hr)
          (by rw [addItemToTag_ok_files_other st cid tag st' hr t (fun e => ht e.symm)]
              exact hf) hm

theorem runAdds_files_notmem (cid : String) :
    ∀ (ts : List String) (st : TagState) (t : String), containsStr ts t = false →
      lookupA (runAdds cid ts st).2.files t = lookupA st.files t := by
  intro ts
  induction ts with
  | nil => intro st t _; rfl
  | cons tag rest ih =>
    intro st t hts
    have htag : tag ≠ t := by
      intro e
      rw [containsStr, if_pos e] at hts
      cases hts
    have hrest : containsStr rest t = false := by
      rw [containsStr, if_neg htag] at hts
      exact hts
    rcases hr : addItemToTag st cid tag with e | st'
    · rw [show runAdds cid (tag :: rest) st = (.error e, st) by simp [runAdds, hr]]
    · rw [show runAdds cid (tag :: rest) st = runAdds cid rest st' by simp [runAdds, hr]]
      rw [ih st' t hrest]
      exact addItemToTag_ok_files_other st cid tag st' hr t (Ne.symm htag)

theorem runRemovals_error (cid : String) (cur : List String) :
    ∀ (ts : List String) (st : TagState) (e : String) (st'' : TagState),
      runRemovals cid cur ts st = (.error e, st'') →
      ∃ pre t post st1, ts = pre ++ t :: post ∧
        runRemovals cid cur pre st = (.ok (), st1) ∧
        containsStr cur t = false ∧
        removeItemFromTag st1 cid t = .error e ∧ st'' = st1 := by
  intro ts
  induction ts with
  | nil => intro st e st'' h; cases h
  | cons oldTag rest ih =>
    intro st e st'' h
    by_cases hc : containsStr cur oldTag
    · rw [show runRemovals cid cur (oldTag :: rest) st = runRemovals cid cur rest st by
        simp [runRemovals, hc]] at h
      rcases ih st e st'' h with ⟨pre, t, post, st1, hts, hpre, hcur, herr, hst⟩
      refine ⟨oldTag :: pre, t, post, st1, by rw [hts]; rfl, ?_, hcur, herr, hst⟩
      rw [show runRemovals cid cur (oldTag :: pre) st = runRemovals cid cur pre st by
        simp [runRemovals, hc]]
      exact hpre
    · rcases hr : removeItemFromTag st cid oldTag with e' | st'
      · rw [show runRemovals cid cur (oldTag :: rest) st = (.error e', st) by
          simp [runRemovals, hc, hr]] at h
        cases h
        exact ⟨[], oldTag, rest, st, rfl, rfl, by simpa using hc, hr, rfl⟩
      · rw [show runRemovals cid cur (oldTag :: rest) st = runRemovals cid cur rest st' by
          simp [runRemovals, hc, hr]] at h
        rcases ih st' e st'' h with ⟨pre, t, post, st1, hts, hpre, hcur, herr, hst⟩
        refine ⟨oldTag :: pre, t, post, st1, by rw [hts]; rfl, ?_, hcur, herr, hst⟩
        rw [show runRemovals cid cur (oldTag :: pre) st = runRemovals cid cur pre st' by
          simp [runRemovals, hc, hr]]
        exact hpre

theorem runAdds_error (cid : String) :
    ∀ (ts : List String) (st : TagState) (e : String) (st'' : TagState),
      runAdds cid ts st = (.error e, st'') →
      ∃ pre t post st1, ts = pre ++ t :: post ∧
        runAdds cid pre st = (.ok (), st1) ∧
        addItemToTag st1 cid t = .error e ∧ st'' = st1 := by
  intro ts
  induction ts with
  | nil => intro st e st'' h; cases h
  | cons tag rest ih =>
    intro st e st'' h
    rcases hr : addItemToTag st cid tag with e' | st'
    · rw [show runAdds cid (tag :: rest) st = (.error e', st) by simp [runAdds, hr]] at h
      cases h
      exact ⟨[], tag, rest, st, rfl, rfl, hr, rfl⟩
    · rw [show runAdds cid (tag :: rest) st = runAdds cid rest st' by
        simp [runAdds, hr]] at h
      rcases ih st' e st'' h with ⟨pre, t, post, st1, hts, hpre, herr, hst⟩
      refine ⟨tag :: pre, t, post, st1, by rw [hts]; rfl, ?_, herr, hst⟩
      rw [show runAdds cid (tag :: pre) st = runAdds cid pre st' by simp [runAdds, hr]]
      exact hpre

theorem coh_cache_empty (st : TagState) : Coh ({ st with cache := [] } : TagState) := by
  intro t ids h
  simp [lookupA] at h

theorem updateItemTags_coh (item : Item) (prev : List String) (st : TagState) :
    Coh (updateItemTags item prev st).2 := by
  simp only [updateItemTags]
  rcases hr : runRemovals (combinedID item) item.tags prev { st with cache := [] }
    with ⟨r, st'⟩
  have h1 : Coh st' := by
    have := runRemovals_coh (combinedID item) item.tags prev { st with cache := [] }
      (coh_cache_empty st)
    rw [hr] at this
    exact this
  cases r with
  | error e => exact h1
  | ok u =>
    cases u
    exact runAdds_coh (combinedID item) item.tags st' h1

theorem updateItemTags_goodFiles (item : Item) (prev : List String) (st : TagState)
    (hg : goodFiles st) : goodFiles (updateItemTags item prev st).2 := by
  have hg0 : goodFiles ({ st with cache := [] } : TagState) := hg
  simp only [updateItemTags]
  rcases hr : runRemovals (combinedID item) item.tags prev { st with cache := [] }
    with ⟨r, st'⟩
  have h1 : goodFiles st' := by
    have := runRemovals_goodFiles (combinedID item) item.tags prev
      { st with cache := [] } hg0
    rw [hr] at this
    exact this
  cases r with
  | error e => exact h1
  | ok u =>
    cases u
    exact runAdds_goodFiles (combinedID item) item.tags st' h1

theorem updateItemTags_malformed (item : Item) (prev : List String) (st : TagState)
    (tag : String) (hf : lookupA st.files tag = some .malformed) :
    lookupA (updateItemTags item prev st).2.files tag = some .malformed := by
  have hinv0 : MalInv tag ({ st with cache := [] } : TagState) := ⟨hf, by simp [lookupA]⟩
  simp only [updateItemTags]
  rcases hr : runRemovals (combinedID item) item.tags prev { st with cache := [] }
    with ⟨r, st'⟩
  have h1 : MalInv tag st' := by
    have := runRemovals_malinv (combinedID item) item.tags tag prev
      { st with cache := [] } hinv0
    rw [hr] at this
    exact this
  cases r with
  | error e => exact h1.1
  | ok u =>
    cases u
    exact (runAdds_malinv (combinedID item) tag item.tags st' h1).1

/--
C3 (corrected).  The spec claims the entire cache is invalidated after
every successful reconciliation write, so that a subsequent read of any
tag re-fetches from the store.  In the code the wholesale clear happens
once, at the start of `UpdateItemTags` and regardless of the outcome of
any write, and every subsequent successful `saveTagFile` re-populates
the cache entry of the affected tag.  Amended claim, proved here:
(a) a reconciliation's outcome is independent of the incoming cache
(the clear at the start makes all reads go to the store), and (b) after
a reconciliation every cache entry agrees with a well-formed file on
disk, so cached reads serve exactly what a store re-fetch would.
-/
theorem c3_cache_invalidation (item : Item) (prev : List String)
    (files : List (String × TagFile)) (c1 c2 : List (String × List String))
    (st : TagState) :
    updateItemTags item prev ⟨files, c1⟩ = updateItemTags item prev ⟨files, c2⟩ ∧
    (∀ t ids, lookupA (updateItemTags item prev st).2.cache t = some ids →
      lookupA (updateItemTags item prev st).2.files t = some (.good ids)) := by
  exact ⟨rfl, fun t ids h => updateItemTags_coh item prev st t ids h⟩

/--
Witness for C3: a concrete reconciliation that adds `a:note` to tag `t`
leaves the cache entry `t ↦ [a:note]`, and the theorem forces the file
for `t` to hold exactly that list.
-/
theorem c3_cache_invalidation_witness :
    lookupA (updateItemTags ⟨"a", "note", ["t"]⟩ []
      ⟨[], [("x", ["a:note"])]⟩).2.files "t" = some (.good ["a:note"]) :=
  (c3_cache_invalidation ⟨"a", "note", ["t"]⟩ [] [] [] []
    ⟨[], [("x", ["a:note"])]⟩).2 "t" ["a:note"] (by decide)

/--
Counterexample to C3 as stated: after this successful reconciliation
(whose last action is a successful write of tag `t`) the cache is not
empty — it holds the entry for `t` written by `saveTagFile` — so a
subsequent read of `t` is served from the cache, not re-fetched.
-/
theorem c3_counterexample :
    (updateItemTags ⟨"a", "note", ["t"]⟩ [] ⟨[], [("x", ["a:note"])]⟩).1 = .ok () ∧
    (updateItemTags ⟨"a", "note", ["t"]⟩ [] ⟨[], [("x", ["a:note"])]⟩).2.cache =
      [("t", ["a:note"])] ∧
    getItemIDsByTag (updateItemTags ⟨"a", "note", ["t"]⟩ []
        ⟨[], [("x", ["a:note"])]⟩).2 "t" =
      .ok (["a:note"], (updateItemTags ⟨"a", "note", ["t"]⟩ []
        ⟨[], [("x", ["a:note"])]⟩).2) :=
  ⟨rfl, rfl, rfl⟩

/--
C6 (corrected).  The spec says tags present in both the previous and
the current set are untouched.  The addition loop does run on such a
tag; its persisted file is unchanged exactly because the item is
already recorded as a member, making `addItemToTag` a no-op.  If the
persisted file does not list the item, the reconciliation appends it.
Amended claim, proved here: a tag in the current set whose file already
records the item keeps its file byte-for-byte unchanged through the
whole reconciliation (in particular it is never removed from), whatever
the previous set and whether or not the call succeeds.
-/
theorem c6_both_sets_untouched (item : Item) (prev : List String) (st : TagState)
    (t : String) (ids : List String) (hcur : containsStr item.tags t = true)
    (hf : lookupA st.files t = some (.good ids))
    (hm : containsStr ids (combinedID item) = true) :
    lookupA (updateItemTags item prev st).2.files t = some (.good ids) := by
  simp only [updateItemTags]
  rcases hr : runRemovals (combinedID item) item.tags prev { st with cache := [] }
    with ⟨r, st'⟩
  have hfiles' : lookupA st'.files t = some (.good ids) := by
    have := runRemovals_files_contains (combinedID item) item.tags prev
      { st with cache := [] } t hcur
    rw [hr] at this
    exact this.trans hf
  have hcoh' : Coh st' := by
    have := runRemovals_coh (combinedID item) item.tags prev { st with cache := [] }
      (coh_cache_empty st)
    rw [hr] at this
    exact this
  cases r with
  | error e => exact hfiles'
  | ok u =>
    cases u
    exact runAdds_files_member (combinedID item) item.tags st' t ids hcoh' hfiles' hm

/--
Witness for C6: tag `t` is in both sets and its file already lists
`a:note`; after the reconciliation the file is unchanged.
-/
theorem c6_both_sets_untouched_witness :
    lookupA (updateItemTags ⟨"a", "note", ["t"]⟩ ["t"]
      ⟨[("t", .good ["a:note", "b:note"])], []⟩).2.files "t" =
      some (.good ["a:note", "b:note"]) :=
  c6_both_sets_untouched ⟨"a", "note", ["t"]⟩ ["t"]
    ⟨[("t", .good ["a:note", "b:note"])], []⟩ "t" ["a:note", "b:note"]
    (by decide) (by decide) (by decide)

/--
Counterexample to C6 as stated: `t` is in both the previous and the
current tag set, but its persisted file (which does not yet list the
item) is modified by the reconciliation — the item is appended.
-/
theorem c6_counterexample :
    (updateItemTags ⟨"a", "note", ["t"]⟩ ["t"]
      ⟨[("t", .good ["b:note"])], []⟩).2.files =
      [("t", .good ["b:note", "a:note"])] := by
  decide

/--
C7 (confirmed).  A tag's record is deleted as soon as its member list
becomes empty: (a) reconciliation preserves the invariant that no tag
file on disk holds an empty list, and (b) if a reconciliation removes a
tag's last member (previous set `[t]`, `t` not current, the file
holding only members equal to the item's combined ID), then `t` is
absent from `GetAllTags` afterwards, whether or not the addition phase
succeeds.
-/
theorem c7_empty_tag_deleted (item : Item) (prev : List String) (st : TagState) :
    (goodFiles st → goodFiles (updateItemTags item prev st).2) ∧
    (∀ t ids, containsStr item.tags t = false →
      lookupA st.files t = some (.good ids) → ids ≠ [] →
      ids.filter (fun i => i ≠ combinedID item) = [] →
      t ∉ getAllTags (updateItemTags item [t] st).2) := by
  constructor
  · exact fun hg => updateItemTags_goodFiles item prev st hg
  · intro t ids hnc hf hne hfilter
    rcases removeItemFromTag_deletes { st with cache := [] } (combinedID item) t ids
      (coh_cache_empty st) hf hne hfilter with ⟨st1, hrem, hnone, hcoh1⟩
    have hrr : runRemovals (combinedID item) item.tags [t] { st with cache := [] } =
        (.ok (), st1) := by
      simp [runRemovals, hnc, hrem]
    simp only [updateItemTags, getAllTags]
    rw [hrr]
    exact (lookupA_eq_none _ _).mp
      (by rw [runAdds_files_notmem (combinedID item) item.tags st1 t hnc]; exact hnone)

/--
Witness for C7: removing the only member of `t` (and failing to touch
anything else) leaves `t` out of the tag listing; the empty-state
invariant is trivially preserved.
-/
theorem c7_empty_tag_deleted_witness :
    (goodFiles (⟨[("t", .good ["a:note"])], []⟩ : TagState) →
      goodFiles (updateItemTags ⟨"a", "note", []⟩ [] ⟨[("t", .good ["a:note"])], []⟩).2) ∧
    "t" ∉ getAllTags (updateItemTags ⟨"a", "note", []⟩ ["t"]
      ⟨[("t", .good ["a:note"])], []⟩).2 :=
  ⟨(c7_empty_tag_deleted ⟨"a", "note", []⟩ [] ⟨[("t", .good ["a:note"])], []⟩).1,
    (c7_empty_tag_deleted ⟨"a", "note", []⟩ [] ⟨[("t", .good ["a:note"])], []⟩).2
      "t" ["a:note"] (by decide) (by decide) (by decide) (by decide)⟩

/--
C8 (confirmed).  Reading a tag with no record (no cache entry, no
file) yields the empty list and no error; a malformed tag file makes
the read — and therefore `addItemToTag`/`removeItemFromTag` on that
tag — fail with the parse error; and a reconciliation never overwrites
a malformed tag file: it survives any `UpdateItemTags` untouched.
-/
theorem c8_read_semantics (st : TagState) (tag cid : String) (item : Item)
    (prev : List String) :
    (lookupA st.cache tag = none → lookupA st.files tag = none →
      getItemIDsByTag st tag = .ok ([], st)) ∧
    (lookupA st.cache tag = none → lookupA st.files tag = some .malformed →
      getItemIDsByTag st tag = .error "failed to parse tag file" ∧
      addItemToTag st cid tag = .error "failed to parse tag file" ∧
      removeItemFromTag st cid tag = .error "failed to parse tag file") ∧
    (lookupA st.files tag = some .malformed →
      lookupA (updateItemTags item prev st).2.files tag = some .malformed) := by
  refine ⟨fun hc hf => getItemIDs_none st tag hc hf, fun hc hf => ?_,
    fun hf => updateItemTags_malformed item prev st tag hf⟩
  have hg := getItemIDs_malformed st tag hc hf
  refine ⟨hg, ?_, ?_⟩
  · unfold addItemToTag
    rw [hg]
  · unfold removeItemFromTag
    rw [hg]

/--
Witness for C8: a state with no record for `u` and a malformed file
for `t`.
-/
theorem c8_read_semantics_witness :
    getItemIDsByTag ⟨[("t", .malformed)], []⟩ "u" =
      .ok ([], ⟨[("t", .malformed)], []⟩) ∧
    addItemToTag ⟨[("t", .malformed)], []⟩ "a:note" "t" =
      .error "failed to parse tag file" ∧
    lookupA (updateItemTags ⟨"a", "note", ["t"]⟩ []
      ⟨[("t", .malformed)], [("t", ["stale"])]⟩).2.files "t" = some .malformed :=
  ⟨(c8_read_semantics ⟨[("t", .malformed)], []⟩ "u" "a:note" ⟨"a", "note", ["t"]⟩
      []).1 (by decide) (by decide),
   ((c8_read_semantics ⟨[("t", .malformed)], []⟩ "t" "a:note" ⟨"a", "note", ["t"]⟩
      []).2.1 (by decide) (by decide)).2.1,
   (c8_read_semantics ⟨[("t", .malformed)], [("t", ["stale"])]⟩ "t" "a:note"
      ⟨"a", "note", ["t"]⟩ []).2.2 (by decide)⟩

/--
C1 (corrected).  The spec claims that when a reconciliation fails on an
individual tag update the error is returned only after attempting all
tag operations.  The code is fail-fast: each loop returns the first
error immediately.  Amended claim, proved here: if `UpdateItemTags`
returns an error, then either some removal failed — the returned state
is exactly the state after the successful removal prefix, the failing
removal's error is returned, and the remaining removals and all
additions were skipped — or all removals succeeded and some addition
failed with the same shape.  In both cases changes already applied are
kept (the returned state is the prefix state: no rollback).
-/
theorem c1_update_fail_fast (item : Item) (prev : List String) (st : TagState)
    (e : String) (st'' : TagState)
    (h : updateItemTags item prev st = (.error e, st'')) :
    (∃ pre t post st1, prev = pre ++ t :: post ∧ containsStr item.tags t = false ∧
      runRemovals (combinedID item) item.tags pre { st with cache := [] } =
        (.ok (), st1) ∧
      removeItemFromTag st1 (combinedID item) t = .error e ∧ st'' = st1) ∨
    (∃ stR pre t post st1,
      runRemovals (combinedID item) item.tags prev { st with cache := [] } =
        (.ok (), stR) ∧
      item.tags = pre ++ t :: post ∧
      runAdds (combinedID item) pre stR = (.ok (), st1) ∧
      addItemToTag st1 (combinedID item) t = .error e ∧ st'' = st1) := by
  simp only [updateItemTags] at h
  rcases hr : runRemovals (combinedID item) item.tags prev { st with cache := [] }
    with ⟨r, st'⟩
  rw [hr] at h
  cases r with
  | error e' =>
    have he : e' = e := by
      injection h with h1 h2
      injection h1 with h3
    have hs : st' = st'' := by
      injection h with h1 h2
    rw [he] at hr
    rcases runRemovals_error (combinedID item) item.tags prev
      { st with cache := [] } e st' hr
      with ⟨pre, t, post, st1, hts, hpre, hcur, herr, hst⟩
    exact Or.inl ⟨pre, t, post, st1, hts, hcur, hpre, herr, hs ▸ hst⟩
  | ok u =>
    cases u
    rcases runAdds_error (combinedID item) item.tags st' e st'' h
      with ⟨pre, t, post, st1, hts, hpre, herr, hst⟩
    exact Or.inr ⟨st', pre, t, post, st1, rfl, hts, hpre, herr, hst⟩

/--
Witness for C1: removing tag `t1` (malformed file) fails immediately;
the decomposition puts the failure at the head of the removal list with
the untouched initial state (cache cleared) as the returned state.
-/
theorem c1_update_fail_fast_witness :
    (∃ pre t post st1, (["t1"] : List String) = pre ++ t :: post ∧
      containsStr (["t2"] : List String) t = false ∧
      runRemovals "a:note" ["t2"] pre ⟨[("t1", .malformed)], []⟩ = (.ok (), st1) ∧
      removeItemFromTag st1 "a:note" t = .error "failed to parse tag file" ∧
      (⟨[("t1", .malformed)], []⟩ : TagState) = st1) ∨
    (∃ stR pre t post st1,
      runRemovals "a:note" ["t2"] ["t1"] ⟨[("t1", .malformed)], []⟩ = (.ok (), stR) ∧
      (["t2"] : List String) = pre ++ t :: post ∧
      runAdds "a:note" pre stR = (.ok (), st1) ∧
      addItemToTag st1 "a:note" t = .error "failed to parse tag file" ∧
      (⟨[("t1", .malformed)], []⟩ : TagState) = st1) :=
  c1_update_fail_fast ⟨"a", "note", ["t2"]⟩ ["t1"] ⟨[("t1", .malformed)], []⟩
    "failed to parse tag file" ⟨[("t1", .malformed)], []⟩ rfl

/--
Counterexample to C1 as stated: the removal of `t1` fails on its
malformed file and the error is returned at once; the addition of `t2`
is never attempted — no file for `t2` exists afterwards — although
attempting it would have succeeded and created that file.
-/
theorem c1_counterexample :
    (updateItemTags ⟨"a", "note", ["t2"]⟩ ["t1"] ⟨[("t1", .malformed)], []⟩).1 =
      .error "failed to parse tag file" ∧
    lookupA (updateItemTags ⟨"a", "note", ["t2"]⟩ ["t1"]
      ⟨[("t1", .malformed)], []⟩).2.files "t2" = none ∧
    addItemToTag ⟨[("t1", .malformed)], []⟩ "a:note" "t2" =
      .ok ⟨[("t1", .malformed), ("t2", .good ["a:note"])], [("t2", ["a:note"])]⟩ :=
  ⟨rfl, rfl, rfl⟩

/--
C4 (corrected).  The spec says that whenever an item's content is
saved, the item-store derives the tags from that text with the
Extractor and passes them to the Reconciler.  `SaveItem` does so only
when the content is non-empty AND the item has no tags yet; manually
set tags suppress extraction entirely (the reconciler then runs with
previous = current = the preset tags).  `UpdateContent` always
extracts.  Amended claim, proved here as equations on the embedded
flows: (1) `SaveItem` with content and an untagged item reconciles
with the extracted tags; (2) with preset tags it reconciles with those
tags unchanged; (3) with empty content likewise; (4) `UpdateContent`
always replaces the tags by the extracted set, reconciles against the
original tags, and on success reconciles a second time through
`SaveItem` with previous = current.
-/
theorem c4_save_flow (item : Item) (content : String) (st : TagState) :
    (item.tags = [] → content ≠ "" →
      saveItem item content st =
        ((updateItemTags { item with tags := extractTags content } item.tags st).1,
         (updateItemTags { item with tags := extractTags content } item.tags st).2,
         { item with tags := extractTags content })) ∧
    (item.tags ≠ [] →
      saveItem item content st =
        ((updateItemTags item item.tags st).1,
         (updateItemTags item item.tags st).2, item)) ∧
    (content = "" →
      saveItem item content st =
        ((updateItemTags item item.tags st).1,
         (updateItemTags item item.tags st).2, item)) ∧
    (updateContent item content st =
      match updateItemTags { item with tags := extractTags content } item.tags st with
      | (.error e, st') => (.error e, st', { item with tags := extractTags content })
      | (.ok _, st1) =>
        ((updateItemTags { item with tags := extractTags content }
            (extractTags content) st1).1,
         (updateItemTags { item with tags := extractTags content }
            (extractTags content) st1).2,
         { item with tags := extractTags content })) := by
  refine ⟨?_, ?_, ?_, ?_⟩
  · intro h1 h2
    simp only [saveItem]
    rw [if_pos ⟨h2, h1⟩]
  · intro h1
    simp only [saveItem]
    rw [if_neg (fun hh => h1 hh.2)]
  · intro h1
    simp only [saveItem]
    rw [if_neg (fun hh => hh.1 h1)]
  · simp only [updateContent]
    rcases hr : updateItemTags { item with tags := extractTags content } item.tags st
      with ⟨r, st'⟩
    cases r with
    | error e => rfl
    | ok u =>
      cases u
      simp only [saveItem]
      rw [if_neg (fun hh => hh.1 rfl)]

/--
Witness for C4: an untagged item saved with content `#y` reconciles
with the extracted tags; an item preset with tag `x` saved with the
same content reconciles with `x` (no extraction).
-/
theorem c4_save_flow_witness :
    saveItem ⟨"a", "note", []⟩ "#y" ⟨[], []⟩ =
      ((updateItemTags ⟨"a", "note", extractTags "#y"⟩ [] ⟨[], []⟩).1,
       (updateItemTags ⟨"a", "note", extractTags "#y"⟩ [] ⟨[], []⟩).2,
       ⟨"a", "note", extractTags "#y"⟩) ∧
    saveItem ⟨"a", "note", ["x"]⟩ "#y" ⟨[], []⟩ =
      ((updateItemTags ⟨"a", "note", ["x"]⟩ ["x"] ⟨[], []⟩).1,
       (updateItemTags ⟨"a", "note", ["x"]⟩ ["x"] ⟨[], []⟩).2,
       ⟨"a", "note", ["x"]⟩) :=
  ⟨(c4_save_flow ⟨"a", "note", []⟩ "#y" ⟨[], []⟩).1 rfl (by decide),
   (c4_save_flow ⟨"a", "note", ["x"]⟩ "#y" ⟨[], []⟩).2.1 (by decide)⟩

/--
Counterexample to C4 as stated: content `#y` is saved, the Extractor
on that text yields `y`, yet the reconciliation receives the preset
tag set `x` — the resulting store has a record for `x` and none for
`y`, and the item keeps tags `x`.
-/
theorem c4_counterexample :
    (saveItem ⟨"a", "note", ["x"]⟩ "#y" ⟨[], []⟩).2.2.tags = ["x"] ∧
    (saveItem ⟨"a", "note", ["x"]⟩ "#y" ⟨[], []⟩).2.1.files =
      [("x", .good ["a:note"])] ∧
    extractTags "#y" = ["y"] :=
  ⟨rfl, rfl, by decide⟩

theorem tagChar_not_ws (c : Char) (h : isTagChar c = true ∨ c = '.') :
    c.isWhitespace = false := by
  rcases h with h | rfl
  · by_contra hw
    rw [Bool.not_eq_false] at hw
    have hg : goSpace c = true := by
      simp [Char.isWhitespace] at hw
      simp [goSpace]
      tauto
    rw [isTagChar, hg] at h
    simp at h
  · rfl

/--
C5 (confirmed).  Every literal input/output pair of the worked-cases
table of §4.1 holds for `ExtractTags`.
-/
theorem c5_worked_cases :
    extractTags "#project" = ["project"] ∧
    extractTags "#work.important" = ["work.important"] ∧
    extractTags "#priority:high" = ["priority:high"] ∧
    extractTags "#tag-with-hyphens" = ["tag-with-hyphens"] ∧
    extractTags "#tag_with_underscores" = ["tag_with_underscores"] ∧
    extractTags "#tag+plus+signs" = ["tag+plus+signs"] ∧
    extractTags "#project:subtask:detail" = ["project:subtask:detail"] ∧
    extractTags "#tag." = ["tag"] ∧
    extractTags "#tag:" = ["tag"] ∧
    extractTags "#tag!" = ["tag"] ∧
    extractTags "# leading space" = [] ∧
    extractTags "word#nottag" = [] :=
  ⟨by decide, by decide, by decide, by decide, by decide, by decide, by decide,
   by decide, by decide, by decide, by decide, by decide⟩

/--
C9 (confirmed).  For every input, `ExtractTags` returns a
duplicate-free list of tags, each non-empty, containing no whitespace
character, and not ending in `.` or `:`; the empty input yields the
empty result.
-/
theorem c9_extract_invariants (s : String) :
    (extractTags s).Nodup ∧
    (∀ t ∈ extractTags s, t ≠ "" ∧ (∀ c ∈ t.data, c.isWhitespace = false) ∧
      (∀ c, t.data.getLast? = some c → c ≠ '.' ∧ c ≠ ':')) ∧
    extractTags "" = [] := by
  refine ⟨?_, ?_, by decide⟩
  · by_cases hs : s = ""
    · subst hs
      simp [extractTags]
    · simp only [extractTags, hs, if_false]
      exact nodup_foldl_insertUnique _ [] List.nodup_nil
  · intro t ht
    rcases extractTags_shape s t ht with ⟨l, rfl, hne, hchars, hlast⟩
    refine ⟨?_, ?_, ?_⟩
    · intro h
      exact hne (congrArg String.data h)
    · intro c hc
      exact tagChar_not_ws c (hchars c hc)
    · intro c hc
      exact hlast c hc

/--
Witness for C9 at the input `#x.y`: the extracted tag `x.y` is
non-empty, whitespace-free, does not end in a stop character, and the
result list is duplicate-free.
-/
theorem c9_extract_invariants_witness :
    ("x.y" ≠ "" ∧ (∀ c ∈ ("x.y" : String).data, c.isWhitespace = false) ∧
      (∀ c, ("x.y" : String).data.getLast? = some c → c ≠ '.' ∧ c ≠ ':')) ∧
    (extractTags "#x.y").Nodup :=
  ⟨(c9_extract_invariants "#x.y").2.1 "x.y" (by decide),
   (c9_extract_invariants "#x.y").1⟩

/--
C2 (corrected).  The spec's body alphabet is letters, digits and
`. : - _ +`, any other character terminating the run.  The code's
character class is the complement of whitespace and `, . ; ! ?`: other
symbols (for example `@`) are accepted inside a tag body and do not
terminate the run.  Moreover the trailing word-boundary assertion stops
the match at the last ASCII word character, so a run ending in `-` or
`+` is cut back (while `_`, a word character, can end a tag).  Amended
claim, proved here: every character of every extracted tag lies in the
class `[^\s,.;!?]` or is an interior `.`; and at concrete inputs
`#a-`, `#a+` extract `a` while `#a_` extracts `a_` and `#tag@x`
extracts `tag@x` whole.
-/
theorem c2_body_charset :
    (∀ (s t : String), t ∈ extractTags s → ∀ c ∈ t.data,
      isTagChar c = true ∨ c = '.') ∧
    extractTags "#a-" = ["a"] ∧ extractTags "#a+" = ["a"] ∧
    extractTags "#a_" = ["a_"] ∧ extractTags "#tag@x" = ["tag@x"] := by
  refine ⟨?_, by decide, by decide, by decide, by decide⟩
  intro s t ht c hc
  rcases extractTags_shape s t ht with ⟨l, rfl, _, hchars, _⟩
  exact hchars c hc

/--
Witness for C2: the extracted character `a` of tag `a` from `#a`
satisfies the amended character-class property.
-/
theorem c2_body_charset_witness : isTagChar 'a' = true ∨ 'a' = '.' :=
  c2_body_charset.1 "#a" "a" (by decide) 'a' (by decide)

/--
Counterexample to C2 as stated: `@` is outside the spec's allowed set
yet `ExtractTags "#tag@x"` returns a tag containing it — `@` does not
terminate the run; and a run cannot end in `+`: `#a+` yields `a`, not
`a+`.
-/
theorem c2_counterexample :
    "tag@x" ∈ extractTags "#tag@x" ∧ '@' ∈ ("tag@x" : String).data ∧
    specAllowedChar '@' = false ∧ extractTags "#a+" ≠ ["a+"] := by
  refine ⟨by decide, by decide, by decide, by decide⟩

theorem filterMap_eq_filter_filterMap {α β : Type} (f : α → Option β) (p : α → Bool)
    (hp : ∀ x, p x = false → f x = none) :
    ∀ l : List α, l.filterMap f = (l.filter p).filterMap f := by
  intro l
  induction l with
  | nil => rfl
  | cons a l ih =>
    by_cases ha : p a
    · rw [List.filter_cons_of_pos ha, List.filterMap_cons, List.filterMap_cons, ih]
    · rw [List.filter_cons_of_neg (by simpa using ha), List.filterMap_cons,
        hp a (by simpa using ha), ih]

theorem resolveID_len_ne_two (load : String → String → Option Item) (id : String)
    (h : (splitOnColon id.data).length ≠ 2) : resolveID load id = none := by
  unfold resolveID
  split
  · rename_i a b heq
    rw [heq] at h
    simp at h
  · rfl

/--
C10 (confirmed).  `GetItemsByTag` resolves only the stored identifiers
that split on `:` into exactly two parts; any entry that does not (an
ID or type containing `:`, or no `:` at all) contributes nothing and
raises no error: the result equals the resolution of the well-formed
entries alone.
-/
theorem c10_nontwo_part_ids_skipped (load : String → String → Option Item)
    (st : TagState) (tag : String) (ids : List String) (st1 : TagState)
    (h : getItemIDsByTag st tag = .ok (ids, st1)) :
    getItemsByTag load st tag =
      .ok ((ids.filter (fun id => (splitOnColon id.data).length = 2)).filterMap
        (resolveID load), st1) ∧
    ∀ id : String, (splitOnColon id.data).length ≠ 2 → resolveID load id = none := by
  constructor
  · have hp : ∀ id : String,
        (decide ((splitOnColon id.data).length = 2)) = false →
        resolveID load id = none :=
      fun id hid => resolveID_len_ne_two load id (by simpa using hid)
    have hstep : getItemsByTag load st tag =
        .ok (ids.filterMap (resolveID load), st1) := by
      unfold getItemsByTag
      rw [h]
    rw [hstep, filterMap_eq_filter_filterMap (resolveID load) _ hp ids]
  · intro id hid
    exact resolveID_len_ne_two load id hid

/--
Witness for C10: a tag file holding a well-formed entry `a:note` and a
malformed one `b:c:d` — the latter is skipped silently, the query
succeeds.
-/
theorem c10_nontwo_part_ids_skipped_witness :
    getItemsByTag (fun i ty => some ⟨i, ty, []⟩)
        ⟨[("t", .good ["a:note", "b:c:d"])], []⟩ "t" =
      .ok (((["a:note", "b:c:d"] : List String).filter
          (fun id => (splitOnColon id.data).length = 2)).filterMap
            (resolveID (fun i ty => some ⟨i, ty, []⟩)),
        ⟨[("t", .good ["a:note", "b:c:d"])], [("t", ["a:note", "b:c:d"])]⟩) ∧
    resolveID (fun i ty => some ⟨i, ty, []⟩) "b:c:d" = none :=
  ⟨(c10_nontwo_part_ids_skipped (fun i ty => some ⟨i, ty, []⟩)
      ⟨[("t", .good ["a:note", "b:c:d"])], []⟩ "t" ["a:note", "b:c:d"]
      ⟨[("t", .good ["a:note", "b:c:d"])], [("t", ["a:note", "b:c:d"])]⟩ rfl).1,
   (c10_nontwo_part_ids_skipped (fun i ty => some ⟨i, ty, []⟩)
      ⟨[("t", .good ["a:note", "b:c:d"])], []⟩ "t" ["a:note", "b:c:d"]
      ⟨[("t", .good ["a:note", "b:c:d"])], [("t", ["a:note", "b:c:d"])]⟩ rfl).2
     "b:c:d" (by decide)⟩

end Vovere
